import Mathlib

/-!
Verification of the account state store (src/account/badger.go) and the
transfer engine / input aggregator / bundle traversal (src/api/wrappers.go)
of the iota.go client library.

Modelling conventions:
* The physical key-value storage engine (badger) is abstracted as an
  association list from account id to `AccountState`; its transactions are
  assumed atomic (the spec treats durability and transaction semantics of
  the storage engine as external).  A JSON round trip is assumed faithful.
* Trinary format validation (seeds, hashes, security levels) lives in a
  repository package that is not part of the analysed sources; addresses,
  seeds and hashes are modelled as opaque strings assumed well formed.
* Machine integers are modelled as `Nat`/`Int`; ledger values are far below
  the 2^63 overflow boundary, so wrap-around is not modelled.
* Network calls made by the transfer engine are abstracted as an explicit
  environment of oracle functions returning `Except`.
-/

namespace IotaGo

/-- Errors surfaced by the account store (badger.ErrKeyNotFound plus the
account package's consistency errors). -/
inductive AccountErr where
  | keyNotFound
  | addrIndexNotFound
  | pendingTransferNotFound
deriving DecidableEq

/-- Modelled from the spec: a pending transfer holds the bundle essence
(derived from the bundle trytes, kept abstract here) and the ordered list
of tail hashes of all incarnations of the transfer. -/
structure PendingTransfer where
  bundleEssence : List String
  tails : List String
deriving DecidableEq

/-- Modelled from the spec: per-account state.  `usedAddresses` stores one
signed integer per reserved address (negative = reserved, non-negative =
spent); `pendingTransfers` maps a tail transaction hash to its pending
transfer; `lastKeyIndex` is the unexported cache field set by LoadAccount. -/
structure AccountState where
  usedAddresses : List Int
  pendingTransfers : List (String × PendingTransfer)
  lastKeyIndex : Nat
deriving DecidableEq

/-- Modelled from the spec: a freshly created account state is empty. -/
def newaccountstate : AccountState :=
  { usedAddresses := [], pendingTransfers := [], lastKeyIndex := 0 }

/-- The badger database restricted to account records: an association list
from account id to the deserialized `AccountState`. -/
def Store : Type := List (String × AccountState)

/-- Set a key in an association list, replacing the first binding if the key
is present and appending one otherwise (models `txn.Set`). -/
def assocSet {β : Type} : List (String × β) → String → β → List (String × β)
  | [], id, v => [(id, v)]
  | (k, w) :: rest, id, v =>
    if k = id then (id, v) :: rest else (k, w) :: assocSet rest id v

/-- Remove a key from an association list (models `delete` on a Go map). -/
def assocErase {β : Type} : List (String × β) → String → List (String × β)
  | [], _ => []
  | (k, w) :: rest, id =>
    if k = id then rest else (k, w) :: assocErase rest id

/-- `BadgerStore.mutate`: read the full state for `id` (failing with the
store's key-not-found error when absent), apply the in-memory transform, and
write the full state back; on any error the transaction is discarded and the
store is unchanged. -/
def mutate (s : Store) (id : String)
    (mutFunc : AccountState → Except AccountErr AccountState) :
    Except AccountErr Unit × Store :=
  match (s : List (String × AccountState)).lookup id with
  | none => (.error .keyNotFound, s)
  | some state =>
    match mutFunc state with
    | .error e => (.error e, s)
    | .ok state' => (.ok (), assocSet s id state')

/-- `BadgerStore.LoadAccount`: return the stored state (setting
`lastKeyIndex` from the last `usedAddresses` entry), or create, persist and
return an empty state when the id is absent.  Returns the state paired with
the store after the call. -/
def loadAccount (s : Store) (id : String) :
    Except AccountErr AccountState × Store :=
  match (s : List (String × AccountState)).lookup id with
  | some state =>
    match state.usedAddresses.getLast? with
    | some e => (.ok { state with lastKeyIndex := e.natAbs }, s)
    | none => (.ok state, s)
  | none =>
    (.ok newaccountstate, assocSet s id newaccountstate)

/-- `BadgerStore.MarkDepositAddresses`: append `-index` to `usedAddresses`
for every supplied index, in one mutation. -/
def markDepositAddresses (s : Store) (id : String) (indices : List Nat) :
    Except AccountErr Unit × Store :=
  mutate s id fun state =>
    .ok { state with
          usedAddresses :=
            state.usedAddresses ++ indices.map (fun idx => -(idx : Int)) }

/-- The inner loop of `AddPendingTransfer` for one index: rewrite the first
`usedAddresses` entry whose absolute value equals `idx` to its non-negative
form, or report that no entry matches. -/
def markIndex : List Int → Nat → Option (List Int)
  | [], _ => none
  | e :: rest, idx =>
    if e.natAbs = idx then some ((e.natAbs : Int) :: rest)
    else
      match markIndex rest idx with
      | none => none
      | some rest' => some (e :: rest')

/-- Fold `markIndex` over all supplied indices (the outer loop of
`AddPendingTransfer`). -/
def markIndices : List Int → List Nat → Option (List Int)
  | used, [] => some used
  | used, idx :: rest =>
    match markIndex used idx with
    | none => none
    | some used' => markIndices used' rest

/-- Modelled from the spec: derive a pending transfer from the bundle's
essence fields; the essence content is kept abstract and `tails` starts
empty. -/
def trytesToPendingTransfer (bundleTrytes : List String) : PendingTransfer :=
  { bundleEssence := bundleTrytes, tails := [] }

/-- `BadgerStore.AddPendingTransfer`: mark every supplied index as spent
(failing with `ErrAddrIndexNotFound` when an index has no matching entry),
then insert a pending transfer keyed by `tailTx` whose tails list is
`[tailTx]`. -/
def addPendingTransfer (s : Store) (id tailTx : String)
    (bundleTrytes : List String) (indices : List Nat) :
    Except AccountErr Unit × Store :=
  mutate s id fun state =>
    match markIndices state.usedAddresses indices with
    | none => .error .addrIndexNotFound
    | some used' =>
      let pt := trytesToPendingTransfer bundleTrytes
      let pt := { pt with tails := pt.tails ++ [tailTx] }
      .ok { state with
            usedAddresses := used',
            pendingTransfers := assocSet state.pendingTransfers tailTx pt }

/-- `BadgerStore.RemovePendingTransfer`: delete the pending transfer keyed
by `tailTx`, failing with `ErrPendingTransferNotFound` when absent. -/
def removePendingTransfer (s : Store) (id tailTx : String) :
    Except AccountErr Unit × Store :=
  mutate s id fun state =>
    match state.pendingTransfers.lookup tailTx with
    | none => .error .pendingTransferNotFound
    | some _ =>
      .ok { state with
            pendingTransfers := assocErase state.pendingTransfers tailTx }

/-- `BadgerStore.AddTailHash`: append a reattachment tail hash to the
matching pending transfer, failing with `ErrPendingTransferNotFound` when
`tailTx` is unknown. -/
def addTailHash (s : Store) (id tailTx newTailTxHash : String) :
    Except AccountErr Unit × Store :=
  mutate s id fun state =>
    match state.pendingTransfers.lookup tailTx with
    | none => .error .pendingTransferNotFound
    | some pt =>
      .ok { state with
            pendingTransfers :=
              assocSet state.pendingTransfers tailTx
                { pt with tails := pt.tails ++ [newTailTxHash] } }

/-! ### Association list lemmas -/

theorem lookup_assocSet_self {β : Type} (l : List (String × β)) (id : String)
    (v : β) : (assocSet l id v).lookup id = some v := by
  induction l with
  | nil => simp [assocSet, List.lookup]
  | cons hd tl ih =>
    obtain ⟨k, w⟩ := hd
    by_cases h : k = id
    · simp [assocSet, h, List.lookup]
    · have hbeq : (id == k) = false := by
        rw [beq_eq_false_iff_ne]
        exact fun e => h e.symm
      simp [assocSet, if_neg h, List.lookup, hbeq, ih]

/-! ### Marking lemmas for AddPendingTransfer -/

/-- Relation between an old `usedAddresses` entry and the corresponding new
one after marking: unchanged, or rewritten to its non-negative form. -/
def spentRel (o n : Int) : Prop := n = o ∨ n = (o.natAbs : Int)

theorem spentRel_trans {a b c : Int} (h1 : spentRel a b) (h2 : spentRel b c) :
    spentRel a c := by
  cases h1 with
  | inl h1 =>
    cases h2 with
    | inl h2 => exact Or.inl (by rw [h2, h1])
    | inr h2 => exact Or.inr (by rw [h2, h1])
  | inr h1 =>
    cases h2 with
    | inl h2 => exact Or.inr (by rw [h2, h1])
    | inr h2 => exact Or.inr (by rw [h2, h1]; simp)

theorem forall₂_spentRel_trans : ∀ {l1 l2 l3 : List Int},
    List.Forall₂ spentRel l1 l2 → List.Forall₂ spentRel l2 l3 →
    List.Forall₂ spentRel l1 l3 := by
  intro l1 l2 l3 h12
  induction h12 generalizing l3 with
  | nil =>
    intro h23
    cases h23
    exact .nil
  | cons hab htl ih =>
    intro h23
    cases h23 with
    | cons hbc htl' => exact .cons (spentRel_trans hab hbc) (ih htl')

theorem markIndex_eq_none (used : List Int) (idx : Nat)
    (h : ∀ e ∈ used, e.natAbs ≠ idx) : markIndex used idx = none := by
  induction used with
  | nil => rfl
  | cons e rest ih =>
    have he : e.natAbs ≠ idx := h e (List.mem_cons_self e rest)
    have hrest := ih fun x hx => h x (List.mem_cons_of_mem e hx)
    simp [markIndex, he, hrest]

theorem markIndex_eq_some (used : List Int) (idx : Nat)
    (h : ∃ e ∈ used, e.natAbs = idx) :
    ∃ used', markIndex used idx = some used' := by
  induction used with
  | nil => simp at h
  | cons e rest ih =>
    by_cases he : e.natAbs = idx
    · exact ⟨(e.natAbs : Int) :: rest, by simp [markIndex, he]⟩
    · obtain ⟨x, hx, hxabs⟩ := h
      rcases List.mem_cons.mp hx with rfl | hx'
      · exact absurd hxabs he
      · obtain ⟨rest', hrest'⟩ := ih ⟨x, hx', hxabs⟩
        exact ⟨e :: rest', by simp [markIndex, he, hrest']⟩

theorem markIndex_forall₂ (used : List Int) (idx : Nat) (used' : List Int)
    (h : markIndex used idx = some used') :
    List.Forall₂ spentRel used used' := by
  induction used generalizing used' with
  | nil => simp [markIndex] at h
  | cons e rest ih =>
    by_cases he : e.natAbs = idx
    · simp only [markIndex, if_pos he, Option.some.injEq] at h
      subst h
      exact .cons (Or.inr rfl)
        (List.forall₂_same.mpr fun x _ => Or.inl rfl)
    · simp only [markIndex, if_neg he] at h
      cases heq : markIndex rest idx with
      | none => rw [heq] at h; cases h
      | some rest' =>
        rw [heq] at h
        cases h
        exact .cons (Or.inl rfl) (ih rest' heq)

theorem markIndex_map_natAbs (used : List Int) (idx : Nat) (used' : List Int)
    (h : markIndex used idx = some used') :
    used'.map Int.natAbs = used.map Int.natAbs := by
  induction used generalizing used' with
  | nil => simp [markIndex] at h
  | cons e rest ih =>
    by_cases he : e.natAbs = idx
    · simp only [markIndex, if_pos he, Option.some.injEq] at h
      subst h
      simp only [List.map_cons]
      rw [Int.natAbs_ofNat]
    · simp only [markIndex, if_neg he] at h
      cases heq : markIndex rest idx with
      | none => rw [heq] at h; cases h
      | some rest' =>
        rw [heq] at h
        cases h
        simp [ih rest' heq]

theorem markIndex_mem (used : List Int) (idx : Nat) (used' : List Int)
    (h : markIndex used idx = some used') : (idx : Int) ∈ used' := by
  induction used generalizing used' with
  | nil => simp [markIndex] at h
  | cons e rest ih =>
    by_cases he : e.natAbs = idx
    · simp only [markIndex, if_pos he, Option.some.injEq] at h
      subst h
      rw [he]
      exact List.mem_cons_self _ _
    · simp only [markIndex, if_neg he] at h
      cases heq : markIndex rest idx with
      | none => rw [heq] at h; cases h
      | some rest' =>
        rw [heq] at h
        cases h
        exact List.mem_cons_of_mem e (ih rest' heq)

theorem markIndex_mem_natCast (used : List Int) (idx : Nat)
    (used' : List Int) (k : Nat) (hmem : (k : Int) ∈ used)
    (h : markIndex used idx = some used') : (k : Int) ∈ used' := by
  induction used generalizing used' with
  | nil => simp at hmem
  | cons e rest ih =>
    by_cases he : e.natAbs = idx
    · simp only [markIndex, if_pos he, Option.some.injEq] at h
      subst h
      rcases List.mem_cons.mp hmem with hk | hk
      · have : e.natAbs = k := by rw [← hk]; simp
        rw [this]
        exact List.mem_cons_self _ _
      · exact List.mem_cons_of_mem _ hk
    · simp only [markIndex, if_neg he] at h
      cases heq : markIndex rest idx with
      | none => rw [heq] at h; cases h
      | some rest' =>
        rw [heq] at h
        cases h
        rcases List.mem_cons.mp hmem with hk | hk
        · rw [hk]; exact List.mem_cons_self _ _
        · exact List.mem_cons_of_mem e (ih rest' hk heq)

theorem markIndices_mem_natCast (indices : List Nat) :
    ∀ (used used' : List Int) (k : Nat), (k : Int) ∈ used →
      markIndices used indices = some used' → (k : Int) ∈ used' := by
  induction indices with
  | nil =>
    intro used used' k hmem h
    simp only [markIndices, Option.some.injEq] at h
    exact h ▸ hmem
  | cons i rest ih =>
    intro used used' k hmem h
    simp only [markIndices] at h
    cases heq : markIndex used i with
    | none => rw [heq] at h; cases h
    | some u1 =>
      rw [heq] at h
      exact ih u1 used' k (markIndex_mem_natCast used i u1 k hmem heq) h

theorem markIndices_some (indices : List Nat) :
    ∀ used : List Int, (∀ idx ∈ indices, ∃ e ∈ used, e.natAbs = idx) →
      ∃ used', markIndices used indices = some used' ∧
        List.Forall₂ spentRel used used' ∧
        used'.map Int.natAbs = used.map Int.natAbs ∧
        ∀ idx ∈ indices, (idx : Int) ∈ used' := by
  induction indices with
  | nil =>
    intro used _
    exact ⟨used, rfl, List.forall₂_same.mpr fun x _ => Or.inl rfl, rfl,
      by simp⟩
  | cons i rest ih =>
    intro used h
    obtain ⟨u1, hu1⟩ :=
      markIndex_eq_some used i (h i (List.mem_cons_self i rest))
    have hmap1 := markIndex_map_natAbs used i u1 hu1
    have hrest : ∀ idx ∈ rest, ∃ e ∈ u1, e.natAbs = idx := by
      intro idx hidx
      obtain ⟨e, he, heabs⟩ := h idx (List.mem_cons_of_mem i hidx)
      have : idx ∈ u1.map Int.natAbs := by
        rw [hmap1]
        exact List.mem_map.mpr ⟨e, he, heabs⟩
      obtain ⟨e', he', he'abs⟩ := List.mem_map.mp this
      exact ⟨e', he', he'abs⟩
    obtain ⟨used', hused', hrel, hmap, hmem⟩ := ih u1 hrest
    refine ⟨used', ?_, ?_, hmap.trans hmap1, ?_⟩
    · simp [markIndices, hu1, hused']
    · exact forall₂_spentRel_trans (markIndex_forall₂ used i u1 hu1) hrel
    · intro idx hidx
      rcases List.mem_cons.mp hidx with rfl | hidx'
      · exact markIndices_mem_natCast rest u1 used' idx
          (markIndex_mem used idx u1 hu1) hused'
      · exact hmem idx hidx'

theorem markIndices_none (indices : List Nat) :
    ∀ used : List Int,
      (∃ idx ∈ indices, ∀ e ∈ used, e.natAbs ≠ idx) →
      markIndices used indices = none := by
  induction indices with
  | nil =>
    intro used h
    simp at h
  | cons i rest ih =>
    intro used h
    obtain ⟨idx, hidx, hall⟩ := h
    rcases List.mem_cons.mp hidx with rfl | hidx'
    · have : markIndex used idx = none := markIndex_eq_none used idx hall
      simp [markIndices, this]
    · cases heq : markIndex used i with
      | none => simp [markIndices, heq]
      | some u1 =>
        have hmap := markIndex_map_natAbs used i u1 heq
        have hall' : ∀ e ∈ u1, e.natAbs ≠ idx := by
          intro e he
          have : e.natAbs ∈ used.map Int.natAbs := by
            rw [← hmap]
            exact List.mem_map.mpr ⟨e, he, rfl⟩
          obtain ⟨e0, he0, he0abs⟩ := List.mem_map.mp this
          rw [← he0abs]
          exact hall e0 he0
        have := ih u1 ⟨idx, hidx', hall'⟩
        simp [markIndices, heq, this]

/-! ### C5: AddPendingTransfer marks indices spent or fails atomically -/

/-- C5: on an existing account, `AddPendingTransfer` with indices that all
match some `usedAddresses` entry by absolute value rewrites each matched
entry to its non-negative form (every entry stays or becomes its absolute
value, and each supplied index appears in non-negative form) and inserts a
pending transfer keyed by `tailTx` with tails `[tailTx]`; if some index has
no matching entry, it fails with `AddrIndexNotFound` and the persisted
store is unchanged. -/
theorem addPendingTransfer_marks_or_fails (s : Store) (id tailTx : String)
    (bundleTrytes : List String) (indices : List Nat) (st : AccountState)
    (hst : (s : List (String × AccountState)).lookup id = some st) :
    ((∀ idx ∈ indices, ∃ e ∈ st.usedAddresses, e.natAbs = idx) →
      ∃ st', addPendingTransfer s id tailTx bundleTrytes indices =
          (.ok (), assocSet s id st') ∧
        List.Forall₂ spentRel st.usedAddresses st'.usedAddresses ∧
        (∀ idx ∈ indices, (idx : Int) ∈ st'.usedAddresses) ∧
        st'.pendingTransfers.lookup tailTx =
          some ⟨bundleTrytes, [tailTx]⟩) ∧
    ((∃ idx ∈ indices, ∀ e ∈ st.usedAddresses, e.natAbs ≠ idx) →
      addPendingTransfer s id tailTx bundleTrytes indices =
        (.error .addrIndexNotFound, s)) := by
  constructor
  · intro hall
    obtain ⟨used', hused', hrel, _, hmem⟩ :=
      markIndices_some indices st.usedAddresses hall
    refine ⟨{ st with
              usedAddresses := used',
              pendingTransfers :=
                assocSet st.pendingTransfers tailTx
                  ⟨bundleTrytes, [tailTx]⟩ }, ?_, hrel, hmem, ?_⟩
    · simp [addPendingTransfer, mutate, hst, hused', trytesToPendingTransfer]
    · exact lookup_assocSet_self st.pendingTransfers tailTx _
  · intro hbad
    have := markIndices_none indices st.usedAddresses hbad
    simp [addPendingTransfer, mutate, hst, this]

/-- Witness for C5: account with a reserved index 5; marking index 5
succeeds and inserts the pending transfer, while the matching-entry
condition for the failure branch is vacuously settled by the theorem. -/
theorem addPendingTransfer_marks_or_fails_witness :
    ((∀ idx ∈ ([5] : List Nat),
        ∃ e ∈ (⟨[-5], [], 0⟩ : AccountState).usedAddresses,
        e.natAbs = idx) →
      ∃ st', addPendingTransfer [("acct", ⟨[-5], [], 0⟩)] "acct" "T" ["X"]
          [5] = (.ok (), assocSet [("acct", ⟨[-5], [], 0⟩)] "acct" st') ∧
        List.Forall₂ spentRel (⟨[-5], [], 0⟩ : AccountState).usedAddresses
          st'.usedAddresses ∧
        (∀ idx ∈ ([5] : List Nat), (idx : Int) ∈ st'.usedAddresses) ∧
        st'.pendingTransfers.lookup "T" = some ⟨["X"], ["T"]⟩) ∧
    ((∃ idx ∈ ([5] : List Nat),
        ∀ e ∈ (⟨[-5], [], 0⟩ : AccountState).usedAddresses,
          e.natAbs ≠ idx) →
      addPendingTransfer [("acct", ⟨[-5], [], 0⟩)] "acct" "T" ["X"] [5] =
        (.error .addrIndexNotFound, [("acct", ⟨[-5], [], 0⟩)])) :=
  addPendingTransfer_marks_or_fails [("acct", ⟨[-5], [], 0⟩)] "acct" "T"
    ["X"] [5] ⟨[-5], [], 0⟩ rfl

/-! ### C6: LoadAccount creates and persists an empty state -/

/-- C6: for an account id not previously stored, `LoadAccount` returns an
empty state (empty `usedAddresses` and `pendingTransfers`) without a
not-found error, persists it, and a second `LoadAccount` of the same id
returns the persisted empty state with the store unchanged. -/
theorem loadAccount_creates_empty_idempotent (s : Store) (id : String)
    (h : (s : List (String × AccountState)).lookup id = none) :
    loadAccount s id = (.ok newaccountstate, assocSet s id newaccountstate) ∧
    newaccountstate.usedAddresses = [] ∧
    newaccountstate.pendingTransfers = [] ∧
    (assocSet s id newaccountstate).lookup id = some newaccountstate ∧
    loadAccount (assocSet s id newaccountstate) id =
      (.ok newaccountstate, assocSet s id newaccountstate) := by
  refine ⟨?_, rfl, rfl, lookup_assocSet_self s id newaccountstate, ?_⟩
  · simp [loadAccount, h]
  · simp [loadAccount, newaccountstate, lookup_assocSet_self]

/-- Witness for C6 at a concrete store. -/
theorem loadAccount_creates_empty_idempotent_witness :
    loadAccount [] "acct" =
      (.ok newaccountstate, assocSet [] "acct" newaccountstate) ∧
    newaccountstate.usedAddresses = [] ∧
    newaccountstate.pendingTransfers = [] ∧
    (assocSet [] "acct" newaccountstate).lookup "acct" =
      some newaccountstate ∧
    loadAccount (assocSet [] "acct" newaccountstate) "acct" =
      (.ok newaccountstate, assocSet [] "acct" newaccountstate) :=
  loadAccount_creates_empty_idempotent [] "acct" rfl

/-! ### C10: mutations on an unknown account id fail without creating it -/

/-- C10: for an account id with no stored state, every mutation operation
fails with the store's key-not-found error and leaves the store unchanged
(creating no account state), while `LoadAccount` is the operation that
auto-creates and persists the id. -/
theorem mutations_on_missing_account_fail (s : Store) (id : String)
    (indices : List Nat) (tailTx newTail : String)
    (bundleTrytes : List String)
    (h : (s : List (String × AccountState)).lookup id = none) :
    markDepositAddresses s id indices = (.error .keyNotFound, s) ∧
    addPendingTransfer s id tailTx bundleTrytes indices =
      (.error .keyNotFound, s) ∧
    removePendingTransfer s id tailTx = (.error .keyNotFound, s) ∧
    addTailHash s id tailTx newTail = (.error .keyNotFound, s) ∧
    (loadAccount s id).2.lookup id = some newaccountstate := by
  refine ⟨?_, ?_, ?_, ?_, ?_⟩ <;>
    simp [markDepositAddresses, addPendingTransfer, removePendingTransfer,
      addTailHash, loadAccount, mutate, h, lookup_assocSet_self]

/-- Witness for C10 at a concrete store. -/
theorem mutations_on_missing_account_fail_witness :
    markDepositAddresses [] "acct" [5] = (.error .keyNotFound, []) ∧
    addPendingTransfer [] "acct" "T" ["X"] [5] = (.error .keyNotFound, []) ∧
    removePendingTransfer [] "acct" "T" = (.error .keyNotFound, []) ∧
    addTailHash [] "acct" "T" "U" = (.error .keyNotFound, []) ∧
    (loadAccount [] "acct").2.lookup "acct" = some newaccountstate :=
  mutations_on_missing_account_fail [] "acct" [5] "T" "U" ["X"] rfl

/-! ## Input/Balance aggregator (src/api/wrappers.go GetInputs) -/

/-- Errors surfaced by the api package operations modelled here;
`transport` stands for an opaque error bubbled up from the node client. -/
inductive ApiErr where
  | insufficientBalance
  | sendingBackToInputs
  | invalidTailTransaction
  | invalidBundle
  | transport
deriving DecidableEq

/-- `api.Address`: a spendable input (address, security level, key index,
balance). -/
structure Address where
  address : String
  security : Nat
  keyIndex : Nat
  balance : Nat
deriving DecidableEq

/-- `api.Inputs`: a list of inputs together with their accumulated total
balance. -/
structure Inputs where
  inputs : List Address
  totalBalance : Nat
deriving DecidableEq

/-- `API.GetInputObjects`: build one `Address` per address with a positive
balance, with key index `start + position`, accumulating the total
balance.  Addresses and balances are aligned positionally (the node
returns one balance per address). -/
def getInputObjects : List String → List Nat → Nat → Nat → Inputs
  | [], _, _, _ => ⟨[], 0⟩
  | _ :: _, [], _, _ => ⟨[], 0⟩
  | a :: as, b :: bs, start, secLvl =>
    let rest := getInputObjects as bs (start + 1) secLvl
    if b = 0 then rest
    else ⟨⟨a, secLvl, start, b⟩ :: rest.inputs, b + rest.totalBalance⟩

/-- The threshold-selection loop of `GetInputs`: append inputs in order,
stopping (before appending) as soon as the running total `acc` meets or
exceeds the threshold. -/
def selectLoop (threshold : Nat) : List Address → Nat → List Address
  | [], _ => []
  | inp :: rest, acc =>
    if threshold ≤ acc then []
    else inp :: selectLoop threshold rest (acc + inp.balance)

/-- `API.GetInputs` after address generation and balance fetching: build
the input objects and, when a threshold is set, fail with
`ErrInsufficientBalance` if the threshold exceeds the total balance, else
keep only the selected inputs and their accumulated balance. -/
def getInputs (addresses : List String) (balances : List Nat)
    (start secLvl : Nat) (threshold : Option Nat) : Except ApiErr Inputs :=
  let inputs := getInputObjects addresses balances start secLvl
  match threshold with
  | none => .ok inputs
  | some t =>
    if t > inputs.totalBalance then .error .insufficientBalance
    else
      let sel := selectLoop t inputs.inputs 0
      .ok ⟨sel, (sel.map Address.balance).sum⟩

theorem getInputObjects_totalBalance :
    ∀ (addresses : List String) (balances : List Nat) (start secLvl : Nat),
      (getInputObjects addresses balances start secLvl).totalBalance =
        (((getInputObjects addresses balances start secLvl).inputs).map
          Address.balance).sum := by
  intro addresses
  induction addresses with
  | nil => intro balances start secLvl; rfl
  | cons a as ih =>
    intro balances start secLvl
    cases balances with
    | nil => rfl
    | cons b bs =>
      by_cases hb : b = 0
      · simp [getInputObjects, hb, ih]
      · simp [getInputObjects, hb, ih]

theorem getInputObjects_keyIndex_le :
    ∀ (addresses : List String) (balances : List Nat) (start secLvl : Nat),
      ∀ x ∈ (getInputObjects addresses balances start secLvl).inputs,
        start ≤ x.keyIndex := by
  intro addresses
  induction addresses with
  | nil => intro balances start secLvl x hx; simp [getInputObjects] at hx
  | cons a as ih =>
    intro balances start secLvl x hx
    cases balances with
    | nil => simp [getInputObjects] at hx
    | cons b bs =>
      by_cases hb : b = 0
      · simp only [getInputObjects, if_pos hb] at hx
        exact Nat.le_of_succ_le (ih bs (start + 1) secLvl x hx)
      · simp only [getInputObjects, if_neg hb] at hx
        rcases List.mem_cons.mp hx with rfl | hx'
        · exact Nat.le_refl _
        · exact Nat.le_of_succ_le (ih bs (start + 1) secLvl x hx')

theorem getInputObjects_keyIndex_sorted :
    ∀ (addresses : List String) (balances : List Nat) (start secLvl : Nat),
      List.Pairwise (fun x y => x.keyIndex < y.keyIndex)
        (getInputObjects addresses balances start secLvl).inputs := by
  intro addresses
  induction addresses with
  | nil => intro balances start secLvl; simp [getInputObjects]
  | cons a as ih =>
    intro balances start secLvl
    cases balances with
    | nil => simp [getInputObjects]
    | cons b bs =>
      by_cases hb : b = 0
      · simp only [getInputObjects, if_pos hb]
        exact ih bs (start + 1) secLvl
      · simp only [getInputObjects, if_neg hb]
        exact List.Pairwise.cons
          (fun y hy =>
            Nat.lt_of_lt_of_le (Nat.lt_succ_self start)
              (getInputObjects_keyIndex_le as bs (start + 1) secLvl y hy))
          (ih bs (start + 1) secLvl)

theorem selectLoop_take (t : Nat) :
    ∀ (l : List Address) (acc : Nat),
      selectLoop t l acc = l.take (selectLoop t l acc).length := by
  intro l
  induction l with
  | nil => intro acc; rfl
  | cons inp rest ih =>
    intro acc
    by_cases h : t ≤ acc
    · simp [selectLoop, h]
    · simp only [selectLoop, if_neg h, List.length_cons, List.take_succ_cons]
      rw [← ih (acc + inp.balance)]

theorem selectLoop_reaches (t : Nat) :
    ∀ (l : List Address) (acc : Nat),
      t ≤ acc + (l.map Address.balance).sum →
      t ≤ acc + ((selectLoop t l acc).map Address.balance).sum := by
  intro l
  induction l with
  | nil => intro acc h; simpa using h
  | cons inp rest ih =>
    intro acc h
    by_cases hle : t ≤ acc
    · simp only [selectLoop, if_pos hle, List.map_nil, List.sum_nil]
      exact Nat.le_add_right_of_le hle
    · have h' : t ≤ (acc + inp.balance) + (rest.map Address.balance).sum := by
        simp only [List.map_cons, List.sum_cons] at h
        omega
      have := ih (acc + inp.balance) h'
      simp only [selectLoop, if_neg hle, List.map_cons, List.sum_cons]
      omega

theorem selectLoop_minimal (t : Nat) :
    ∀ (l : List Address) (acc : Nat) (k : Nat),
      k < (selectLoop t l acc).length →
      acc + ((l.take k).map Address.balance).sum < t := by
  intro l
  induction l with
  | nil => intro acc k hk; simp [selectLoop] at hk
  | cons inp rest ih =>
    intro acc k hk
    by_cases hle : t ≤ acc
    · simp [selectLoop, hle] at hk
    · cases k with
      | zero => simpa using Nat.lt_of_not_le hle
      | succ k' =>
        simp only [selectLoop, if_neg hle, List.length_cons,
          Nat.succ_lt_succ_iff] at hk
        have := ih (acc + inp.balance) k' hk
        simp only [List.take_succ_cons, List.map_cons, List.sum_cons]
        omega

/-! ### C7: GetInputs threshold selection -/

/-- C7: with a threshold set, `GetInputs` fails with
`InsufficientBalance` when the total balance of the positive-balance
addresses is below the threshold; otherwise it returns the shortest prefix
of the inputs in allocation (key-index) order whose running balance meets
or exceeds the threshold, discarding the rest.  The first conjunct records
that the input objects are in strictly increasing key-index order. -/
theorem getInputs_threshold_selection (addresses : List String)
    (balances : List Nat) (start secLvl threshold : Nat) :
    List.Pairwise (fun x y => x.keyIndex < y.keyIndex)
      (getInputObjects addresses balances start secLvl).inputs ∧
    ((getInputObjects addresses balances start secLvl).totalBalance <
        threshold →
      getInputs addresses balances start secLvl (some threshold) =
        .error .insufficientBalance) ∧
    (threshold ≤
        (getInputObjects addresses balances start secLvl).totalBalance →
      ∃ sel, getInputs addresses balances start secLvl (some threshold) =
          .ok sel ∧
        sel.inputs =
          ((getInputObjects addresses balances start secLvl).inputs).take
            sel.inputs.length ∧
        threshold ≤ sel.totalBalance ∧
        ∀ k < sel.inputs.length,
          ((((getInputObjects addresses balances start
              secLvl).inputs).take k).map Address.balance).sum <
            threshold) := by
  refine ⟨getInputObjects_keyIndex_sorted addresses balances start secLvl,
    ?_, ?_⟩
  · intro hlt
    simp [getInputs, Nat.lt_iff_add_one_le.mp hlt, gt_iff_lt, hlt]
  · intro hle
    have hnot : ¬ threshold >
        (getInputObjects addresses balances start secLvl).totalBalance :=
      Nat.not_lt.mpr hle
    refine ⟨⟨selectLoop threshold
        (getInputObjects addresses balances start secLvl).inputs 0,
      ((selectLoop threshold
        (getInputObjects addresses balances start secLvl).inputs 0).map
          Address.balance).sum⟩, ?_, ?_, ?_, ?_⟩
    · simp [getInputs, hnot]
    · exact selectLoop_take threshold _ 0
    · have h0 : threshold ≤ 0 +
          (((getInputObjects addresses balances start secLvl).inputs).map
            Address.balance).sum := by
        rw [← getInputObjects_totalBalance]
        simpa using hle
      simpa using selectLoop_reaches threshold _ 0 h0
    · intro k hk
      simpa using selectLoop_minimal threshold _ 0 k hk

/-- Witness for C7 at a concrete address/balance range. -/
theorem getInputs_threshold_selection_witness :
    List.Pairwise (fun x y => x.keyIndex < y.keyIndex)
      (getInputObjects ["A", "B", "C"] [0, 3, 4] 0 2).inputs ∧
    ((getInputObjects ["A", "B", "C"] [0, 3, 4] 0 2).totalBalance < 3 →
      getInputs ["A", "B", "C"] [0, 3, 4] 0 2 (some 3) =
        .error .insufficientBalance) ∧
    (3 ≤ (getInputObjects ["A", "B", "C"] [0, 3, 4] 0 2).totalBalance →
      ∃ sel, getInputs ["A", "B", "C"] [0, 3, 4] 0 2 (some 3) = .ok sel ∧
        sel.inputs =
          ((getInputObjects ["A", "B", "C"] [0, 3, 4] 0 2).inputs).take
            sel.inputs.length ∧
        3 ≤ sel.totalBalance ∧
        ∀ k < sel.inputs.length,
          ((((getInputObjects ["A", "B", "C"] [0, 3, 4] 0 2).inputs).take
            k).map Address.balance).sum < 3) :=
  getInputs_threshold_selection ["A", "B", "C"] [0, 3, 4] 0 2 3

/-! ## Transfer engine (src/api/wrappers.go PrepareTransfers) -/

/-- `bundle.Transfer` restricted to the fields the engine uses for value
flow: destination address and non-negative value (tag and message only
affect signature-message fragments, which carry no value). -/
structure Transfer where
  address : String
  value : Nat
deriving DecidableEq

/-- A transaction under construction, projected to the fields the analysed
properties depend on: address and signed value.  Modelled from the spec:
one transaction is appended per output transfer, per input, and per
remainder entry (steps 3, 5 and 7); finalization and signing (steps 9-11)
assign indices, timestamps and signatures and do not change these fields. -/
structure BTx where
  address : String
  value : Int
deriving DecidableEq

/-- Result of `PrepareTransfers`: a built bundle, an error value, or a
runtime panic (`crash`, e.g. a nil-pointer dereference). -/
inductive PTResult where
  | ok (txs : List BTx)
  | err (e : ApiErr)
  | crash
deriving DecidableEq

/-- Network-facing collaborators of `PrepareTransfers`, abstracted:
`getInputs` is `API.GetInputs` invoked with a threshold, `getNewAddress`
is `API.GetNewAddress` invoked with a start index. -/
structure PTEnv where
  getInputs : Nat → Except ApiErr (List Address)
  wereAddressesSpentFrom : List String → Except ApiErr (List Bool)
  getNewAddress : Nat → Except ApiErr String

/-- Modelled from the spec: strip the 9-tryte checksum suffix from a
90-tryte address; a checksum is a cosmetic suffix that never affects
address identity. -/
def removeChecksum (addr : String) : String :=
  if addr.length = 90 then (addr.toList.take 81).asString else addr

/-- The spent-state removal loop of the auto-gather branch: for each
reported state, in order, remove the input at that position when the state
is true (the source mutates the slice while iterating the states). -/
def removeSpent (inputs : List Address) (states : List Bool) : List Address :=
  states.enum.foldl (fun acc p => if p.2 then acc.eraseIdx p.1 else acc)
    inputs

/-- The input-gathering step of `PrepareTransfers`: when the total output
value is nonzero and no inputs were supplied, fetch inputs for that
threshold and run the spent filter.  The source builds `inputAddresses`
by iterating over `props.Inputs`, which is empty under this branch's
condition, so the spent query is issued for an empty address list. -/
def gatherInputs (env : PTEnv) (totalTransferValue : Nat)
    (supplied : List Address) : Except ApiErr (List Address) :=
  if totalTransferValue ≠ 0 ∧ supplied = [] then
    match env.getInputs totalTransferValue with
    | .error e => .error e
    | .ok gathered =>
      let inputAddresses : List String := []
      match env.wereAddressesSpentFrom inputAddresses with
      | .error e => .error e
      | .ok states => .ok (removeSpent gathered states)
  else .ok supplied

/-- The output transactions: one per transfer, carrying its value. -/
def outTxs (transfers : List Transfer) : List BTx :=
  transfers.map fun t => ⟨t.address, (t.value : Int)⟩

/-- The input transactions: one per input, carrying minus its balance,
with the checksum stripped from the address. -/
def inputTxs (inputs : List Address) : List BTx :=
  inputs.map fun inp => ⟨removeChecksum inp.address, -(inp.balance : Int)⟩

/-- The running sum of all transaction values (the `remainder` variable of
the source). -/
def bundleRemainder (txs : List BTx) : Int := (txs.map BTx.value).sum

/-- Append the remainder output transaction for `|remainder|` when the
total output value is positive. -/
def addRemainderTx (txs : List BTx) (addr : String) (remainder : Int)
    (totalTransferValue : Nat) : List BTx :=
  if 0 < totalTransferValue then txs ++ [⟨addr, (remainder.natAbs : Int)⟩]
  else txs

/-- The sending-back check: some positive-value transaction shares its
address with some input. -/
def checkSendingBack (txs : List BTx) (inputs : List Address) : Bool :=
  txs.any fun tx =>
    decide (0 < tx.value) && inputs.any fun inp => inp.address == tx.address

/-- Reject the bundle with `ErrSendingBackToInputs` when the check fires,
otherwise finalize and sign.  Modelled from the spec for steps 9-11:
finalization and signing assign indices, timestamps, the bundle hash and
signature fragments without changing addresses, values or the transaction
count, and raise none of the engine's error conditions. -/
def checkAndFinalize (txs : List BTx) (inputs : List Address) : PTResult :=
  if checkSendingBack txs inputs then .err .sendingBackToInputs else .ok txs

/-- `API.PrepareTransfers` after input gathering: append input
transactions, check the balance threshold, compute the remainder, resolve
the remainder address (deriving a fresh one at max input key index + 1, or
dereferencing the caller-supplied pointer, which is a crash when it is
nil), append the remainder transaction, and run the sending-back check. -/
def prepareTransfersCore (env : PTEnv) (transfers : List Transfer)
    (inputs : List Address) (remainderAddress : Option String) : PTResult :=
  if (inputs.map Address.balance).sum < (transfers.map Transfer.value).sum
  then .err .insufficientBalance
  else if 0 < bundleRemainder (outTxs transfers ++ inputTxs inputs) then
    .err .insufficientBalance
  else if bundleRemainder (outTxs transfers ++ inputTxs inputs) = 0 then
    checkAndFinalize (outTxs transfers ++ inputTxs inputs) inputs
  else if 0 < (transfers.map Transfer.value).sum ∧ remainderAddress = none
  then
    match inputs with
    | [] => .crash
    | i0 :: rest =>
      match env.getNewAddress
          ((i0 :: rest).foldl
            (fun m inp => if m < inp.keyIndex then inp.keyIndex else m)
            i0.keyIndex + 1) with
      | .error e => .err e
      | .ok addr =>
        checkAndFinalize
          (addRemainderTx (outTxs transfers ++ inputTxs inputs) addr
            (bundleRemainder (outTxs transfers ++ inputTxs inputs))
            ((transfers.map Transfer.value).sum)) inputs
  else
    match remainderAddress with
    | none => .crash
    | some a =>
      checkAndFinalize
        (addRemainderTx (outTxs transfers ++ inputTxs inputs)
          (removeChecksum a)
          (bundleRemainder (outTxs transfers ++ inputTxs inputs))
          ((transfers.map Transfer.value).sum)) inputs

/-- `API.PrepareTransfers`: gather inputs when needed, then build, check
and finalize the bundle. -/
def prepareTransfers (env : PTEnv) (transfers : List Transfer)
    (suppliedInputs : List Address) (remainderAddress : Option String) :
    PTResult :=
  match gatherInputs env ((transfers.map Transfer.value).sum)
      suppliedInputs with
  | .error e => .err e
  | .ok inputs => prepareTransfersCore env transfers inputs remainderAddress

/-! ### Value-sum helper lemmas -/

theorem sum_outTxs_value (transfers : List Transfer) :
    ((outTxs transfers).map BTx.value).sum =
      ((transfers.map Transfer.value).sum : Int) := by
  induction transfers with
  | nil => rfl
  | cons t rest ih =>
    have ih2 := ih
    unfold outTxs at ih2
    simp only [outTxs, List.map_cons, List.sum_cons, Nat.cast_add]
    rw [ih2]

theorem sum_inputTxs_value (inputs : List Address) :
    ((inputTxs inputs).map BTx.value).sum =
      -(((inputs.map Address.balance).sum : Int)) := by
  induction inputs with
  | nil => rfl
  | cons inp rest ih =>
    simp only [inputTxs, List.map_cons, List.sum_cons, List.map_map] at ih ⊢
    rw [ih]
    push_cast
    ring

theorem gatherInputs_supplied (env : PTEnv) (totalTransferValue : Nat)
    (supplied : List Address)
    (h : supplied ≠ [] ∨ totalTransferValue = 0) :
    gatherInputs env totalTransferValue supplied = .ok supplied := by
  unfold gatherInputs
  rw [if_neg]
  rintro ⟨hV, hsup⟩
  rcases h with h | h
  · exact h hsup
  · exact hV h

theorem checkSendingBack_of_mem (txs : List BTx) (inputs : List Address)
    (h : ∃ tx ∈ txs, 0 < tx.value ∧
      ∃ inp ∈ inputs, inp.address = tx.address) :
    checkSendingBack txs inputs = true := by
  obtain ⟨tx, htx, hpos, inp, hinp, haddr⟩ := h
  rw [checkSendingBack, List.any_eq_true]
  refine ⟨tx, htx, ?_⟩
  rw [Bool.and_eq_true, decide_eq_true_eq, List.any_eq_true]
  exact ⟨hpos, inp, hinp, by rw [beq_iff_eq]; exact haddr⟩

theorem checkSendingBack_append (txs extra : List BTx)
    (inputs : List Address) (h : checkSendingBack txs inputs = true) :
    checkSendingBack (txs ++ extra) inputs = true := by
  rw [checkSendingBack, List.any_append]
  rw [checkSendingBack] at h
  rw [h]
  rfl

theorem checkSendingBack_addRemainder (txs : List BTx) (addr : String)
    (remainder : Int) (totalTransferValue : Nat) (inputs : List Address)
    (h : checkSendingBack txs inputs = true) :
    checkSendingBack (addRemainderTx txs addr remainder totalTransferValue)
      inputs = true := by
  unfold addRemainderTx
  by_cases hV : 0 < totalTransferValue
  · rw [if_pos hV]
    exact checkSendingBack_append txs _ inputs h
  · rw [if_neg hV]
    exact h

/-- An environment whose node reports no address as spent-from. -/
def plainEnv : PTEnv :=
  { getInputs := fun _ => .error .transport,
    wereAddressesSpentFrom := fun addrs => .ok (addrs.map fun _ => false),
    getNewAddress := fun _ => .ok "NEW" }

/-- An environment that gathers a single input on address `A` with
balance 3 and reports every queried address as already spent-from. -/
def spentEnv : PTEnv :=
  { getInputs := fun _ => .ok [⟨"A", 2, 0, 3⟩],
    wereAddressesSpentFrom := fun addrs => .ok (addrs.map fun _ => true),
    getNewAddress := fun _ => .ok "NEW" }

/-! ### C1: the spent filter of the auto-gather branch never fires -/

/-- C1 (code bug): with a nonzero total output value, no supplied inputs,
a gathered input on address `A`, and a node that reports every address
(including `A`) as spent-from, `PrepareTransfers` still returns a bundle
whose input transaction spends from `A`: the spent filter iterates over
the supplied (empty) input list instead of the gathered one, so no
gathered input is ever dropped. -/
theorem prepareTransfers_keeps_spent_input :
    prepareTransfers spentEnv [⟨"B", 3⟩] [] none =
      .ok [⟨"B", 3⟩, ⟨"A", -3⟩] ∧
    spentEnv.wereAddressesSpentFrom ["A"] = .ok [true] :=
  ⟨rfl, rfl⟩

/-! ### C2: exactly balanced inputs give a zero-sum bundle, no remainder -/

/-- C2: when the supplied inputs' balances sum to exactly the transfers'
total value, any bundle returned by `PrepareTransfers` has transaction
values summing to zero and exactly one transaction per transfer plus one
per input — no remainder transaction. -/
theorem prepareTransfers_exact_balance (env : PTEnv)
    (transfers : List Transfer) (suppliedInputs : List Address)
    (remainderAddress : Option String)
    (hsum : (suppliedInputs.map Address.balance).sum =
      (transfers.map Transfer.value).sum) :
    ∀ txs, prepareTransfers env transfers suppliedInputs remainderAddress =
        .ok txs →
      (txs.map BTx.value).sum = 0 ∧
      txs.length = transfers.length + suppliedInputs.length := by
  intro txs h
  have hgather : gatherInputs env ((transfers.map Transfer.value).sum)
      suppliedInputs = .ok suppliedInputs := by
    refine gatherInputs_supplied _ _ _ ?_
    by_cases hs : suppliedInputs = []
    · right
      rw [hs] at hsum
      simpa using hsum.symm
    · left
      exact hs
  unfold prepareTransfers at h
  rw [hgather] at h
  have h2 : prepareTransfersCore env transfers suppliedInputs
      remainderAddress = .ok txs := h
  have hrem : bundleRemainder (outTxs transfers ++ inputTxs suppliedInputs)
      = 0 := by
    rw [bundleRemainder, List.map_append, List.sum_append,
      sum_outTxs_value, sum_inputTxs_value, hsum]
    ring
  unfold prepareTransfersCore at h2
  rw [if_neg (by rw [hsum]; exact lt_irrefl _),
    if_neg (by rw [hrem]; exact lt_irrefl 0), if_pos hrem] at h2
  unfold checkAndFinalize at h2
  by_cases hc : checkSendingBack
      (outTxs transfers ++ inputTxs suppliedInputs) suppliedInputs = true
  · rw [if_pos hc] at h2
    cases h2
  · rw [if_neg hc] at h2
    cases h2
    refine ⟨hrem, ?_⟩
    simp [outTxs, inputTxs]

/-- Witness for C2 at a concrete exactly-balanced call. -/
theorem prepareTransfers_exact_balance_witness :
    (([⟨"B", 2⟩, ⟨"I", -2⟩] : List BTx).map BTx.value).sum = 0 ∧
    ([⟨"B", 2⟩, ⟨"I", -2⟩] : List BTx).length =
      ([⟨"B", 2⟩] : List Transfer).length +
        ([⟨"I", 1, 0, 2⟩] : List Address).length :=
  prepareTransfers_exact_balance plainEnv [⟨"B", 2⟩] [⟨"I", 1, 0, 2⟩] none
    rfl [⟨"B", 2⟩, ⟨"I", -2⟩] rfl

/-! ### C3: insufficient supplied inputs fail with InsufficientBalance -/

/-- C3: when caller-supplied inputs sum to less than the total output
value, `PrepareTransfers` fails with `InsufficientBalance` and returns no
bundle. -/
theorem prepareTransfers_insufficient_balance (env : PTEnv)
    (transfers : List Transfer) (suppliedInputs : List Address)
    (remainderAddress : Option String)
    (hne : suppliedInputs ≠ [])
    (hlt : (suppliedInputs.map Address.balance).sum <
      (transfers.map Transfer.value).sum) :
    prepareTransfers env transfers suppliedInputs remainderAddress =
      .err .insufficientBalance := by
  have hgather := gatherInputs_supplied env
    ((transfers.map Transfer.value).sum) suppliedInputs (Or.inl hne)
  unfold prepareTransfers
  rw [hgather]
  show prepareTransfersCore env transfers suppliedInputs remainderAddress
    = _
  unfold prepareTransfersCore
  rw [if_pos hlt]

/-- Witness for C3 at a concrete underfunded call. -/
theorem prepareTransfers_insufficient_balance_witness :
    prepareTransfers plainEnv [⟨"B", 5⟩] [⟨"I", 1, 0, 3⟩] none =
      .err .insufficientBalance :=
  prepareTransfers_insufficient_balance plainEnv [⟨"B", 5⟩]
    [⟨"I", 1, 0, 3⟩] none (by simp) (by simp)

/-! ### C4: paying back into an input address -/

/-- C4 counterexample to the claim as stated: a call in which the (only)
positive-value output transfer targets the input's own address, but whose
input balance does not cover the output value, fails with
`InsufficientBalance`, not `SendingBackToInputs`. -/
theorem prepareTransfers_sending_back_counterexample :
    (∃ t ∈ ([⟨"A", 5⟩] : List Transfer), 0 < t.value ∧
      ∃ inp ∈ ([⟨"A", 1, 0, 3⟩] : List Address), inp.address = t.address) ∧
    prepareTransfers plainEnv [⟨"A", 5⟩] [⟨"A", 1, 0, 3⟩] none =
      .err .insufficientBalance := by
  constructor
  · exact ⟨⟨"A", 5⟩, by simp, by norm_num, ⟨"A", 1, 0, 3⟩, by simp, rfl⟩
  · rfl

/-- C4 as amended: provided the supplied inputs cover the total output
value and remainder-address derivation succeeds when needed, a call in
which some positive-value output transfer's address equals some input's
address fails with `SendingBackToInputs` and returns no bundle. -/
theorem prepareTransfers_sending_back (env : PTEnv)
    (transfers : List Transfer) (suppliedInputs : List Address)
    (remainderAddress : Option String)
    (hcover : (transfers.map Transfer.value).sum ≤
      (suppliedInputs.map Address.balance).sum)
    (henv : ∀ n, ∃ a, env.getNewAddress n = .ok a)
    (hmatch : ∃ t ∈ transfers, 0 < t.value ∧
      ∃ inp ∈ suppliedInputs, inp.address = t.address) :
    prepareTransfers env transfers suppliedInputs remainderAddress =
      .err .sendingBackToInputs := by
  obtain ⟨t, ht, htpos, inp, hinp, haddr⟩ := hmatch
  have hVpos : 0 < (transfers.map Transfer.value).sum :=
    Nat.lt_of_lt_of_le htpos
      (List.single_le_sum (fun y _ => Nat.zero_le y) _
        (List.mem_map.mpr ⟨t, ht, rfl⟩))
  have hne : suppliedInputs ≠ [] := by
    intro hnil
    rw [hnil] at hcover
    simp at hcover
    omega
  have hgather := gatherInputs_supplied env
    ((transfers.map Transfer.value).sum) suppliedInputs (Or.inl hne)
  have hcheck : checkSendingBack
      (outTxs transfers ++ inputTxs suppliedInputs) suppliedInputs =
      true := by
    refine checkSendingBack_of_mem _ _
      ⟨⟨t.address, (t.value : Int)⟩, ?_, ?_, inp, hinp, haddr⟩
    · exact List.mem_append_left _ (List.mem_map.mpr ⟨t, ht, rfl⟩)
    · simpa using htpos
  unfold prepareTransfers
  rw [hgather]
  show prepareTransfersCore env transfers suppliedInputs remainderAddress
    = _
  unfold prepareTransfersCore
  rw [if_neg (Nat.not_lt.mpr hcover)]
  have hremle : ¬ 0 < bundleRemainder
      (outTxs transfers ++ inputTxs suppliedInputs) := by
    rw [bundleRemainder, List.map_append, List.sum_append,
      sum_outTxs_value, sum_inputTxs_value]
    rw [not_lt]
    have : ((transfers.map Transfer.value).sum : Int) ≤
        ((suppliedInputs.map Address.balance).sum : Int) := by
      exact_mod_cast hcover
    omega
  rw [if_neg hremle]
  by_cases hrem0 : bundleRemainder
      (outTxs transfers ++ inputTxs suppliedInputs) = 0
  · rw [if_pos hrem0]
    unfold checkAndFinalize
    rw [if_pos hcheck]
  · rw [if_neg hrem0]
    by_cases hbr : 0 < (transfers.map Transfer.value).sum ∧
        remainderAddress = none
    · rw [if_pos hbr]
      split
      · exact absurd rfl hne
      · rename_i i0 rest
        obtain ⟨a, ha⟩ := henv ((i0 :: rest).foldl
          (fun m inp => if m < inp.keyIndex then inp.keyIndex else m)
          i0.keyIndex + 1)
        rw [ha]
        show checkAndFinalize _ _ = _
        unfold checkAndFinalize
        rw [if_pos (checkSendingBack_addRemainder _ _ _ _ _ hcheck)]
    · rw [if_neg hbr]
      cases remainderAddress with
      | none => exact absurd ⟨hVpos, rfl⟩ hbr
      | some a =>
        show checkAndFinalize _ _ = _
        unfold checkAndFinalize
        rw [if_pos (checkSendingBack_addRemainder _ _ _ _ _ hcheck)]

/-- Witness for C4 (amended) at a concrete call paying back into its own
input address. -/
theorem prepareTransfers_sending_back_witness :
    prepareTransfers plainEnv [⟨"A", 2⟩] [⟨"A", 1, 0, 5⟩] (some "R") =
      .err .sendingBackToInputs :=
  prepareTransfers_sending_back plainEnv [⟨"A", 2⟩] [⟨"A", 1, 0, 5⟩]
    (some "R") (by simp) (fun n => ⟨"NEW", rfl⟩)
    ⟨⟨"A", 2⟩, by simp, by norm_num, ⟨"A", 1, 0, 5⟩, by simp, rfl⟩

/-! ### C9: nil remainder-address dereference -/

/-- C9: with transfers summing to zero, supplied inputs of positive
balance and no remainder address, the remainder branch dereferences the
nil remainder-address pointer: the call crashes instead of returning a
result or a specific error kind. -/
theorem prepareTransfers_nil_remainder_deref :
    prepareTransfers plainEnv [⟨"B", 0⟩] [⟨"I", 2, 0, 5⟩] none =
      .crash :=
  rfl

/-! ## Bundle traversal and validation (GetBundle / TraverseBundle) -/

/-- `transaction.Transaction` restricted to the fields traversal and
validation use. -/
structure Tx where
  address : String
  value : Int
  currentIndex : Nat
  lastIndex : Nat
  trunkTransaction : String
  bundle : String
deriving DecidableEq

/-- Modelled from the spec: `bundle.ValidBundle` checks a balanced value
sum, a consistent bundle hash, a monotonic index sequence and a correct
transaction count. -/
def validBundle (b : List Tx) : Bool :=
  match b with
  | [] => false
  | t0 :: _ =>
    decide ((b.map Tx.value).sum = 0) &&
    b.all (fun t => t.bundle == t0.bundle) &&
    b.enum.all fun p =>
      p.2.currentIndex == p.1 && p.2.lastIndex + 1 == b.length

/-- `API.TraverseBundle`: fetch the transaction for the given hash (an
unknown hash is an opaque transport failure), reject a non-tail start
(`currentIndex ≠ 0` with an empty accumulated bundle) with
`ErrInvalidTailTransaction`, append the transaction, stop when
`currentIndex = lastIndex`, else recurse on the trunk hash.  The Go
recursion has no bound; `fuel` models potential non-termination (`none` =
fuel exhausted), and the returned list of hashes logs every fetch
issued. -/
def traverseBundle (node : String → Option Tx) :
    Nat → String → List Tx → List String →
    Option (Except ApiErr (List Tx) × List String)
  | 0, _, _, _ => none
  | fuel + 1, h, bndl, log =>
    match node h with
    | none => some (.error .transport, log ++ [h])
    | some tx =>
      if bndl.isEmpty ∧ tx.currentIndex ≠ 0 then
        some (.error .invalidTailTransaction, log ++ [h])
      else if tx.currentIndex = tx.lastIndex then
        some (.ok (bndl ++ [tx]), log ++ [h])
      else
        traverseBundle node fuel tx.trunkTransaction (bndl ++ [tx])
          (log ++ [h])

/-- `API.GetBundle`: traverse from the tail hash, then validate the
assembled bundle before returning it. -/
def getBundle (node : String → Option Tx) (fuel : Nat)
    (tailTxHash : String) :
    Option (Except ApiErr (List Tx) × List String) :=
  match traverseBundle node fuel tailTxHash [] [] with
  | none => none
  | some (.error e, log) => some (.error e, log)
  | some (.ok b, log) =>
    some (if validBundle b then .ok b else .error .invalidBundle, log)

/-- The fetch sequence determined by a start hash and the trunk links of
the transactions fetched. -/
def fetchHashes : String → List Tx → List String
  | _, [] => []
  | h, tx :: rest => h :: fetchHashes tx.trunkTransaction rest

/-- The fetched transactions form a trunk-linked chain from `h`: each
transaction is the node's answer for the running hash, every transaction
before the last has `currentIndex ≠ lastIndex`, and the last one has
`currentIndex = lastIndex`. -/
def IsTrunkChain (node : String → Option Tx) : String → List Tx → Prop
  | _, [] => False
  | h, [tx] => node h = some tx ∧ tx.currentIndex = tx.lastIndex
  | h, tx :: rest =>
    node h = some tx ∧ tx.currentIndex ≠ tx.lastIndex ∧
      IsTrunkChain node tx.trunkTransaction rest

theorem traverseBundle_ok :
    ∀ (fuel : Nat) (node : String → Option Tx) (h : String)
      (bndl : List Tx) (log : List String) (b : List Tx)
      (log' : List String),
      traverseBundle node fuel h bndl log = some (.ok b, log') →
      ∃ fetched, b = bndl ++ fetched ∧
        log' = log ++ fetchHashes h fetched ∧
        IsTrunkChain node h fetched ∧
        (bndl = [] → ∃ t0 r, fetched = t0 :: r ∧ t0.currentIndex = 0) := by
  intro fuel
  induction fuel with
  | zero =>
    intro node h bndl log b log' hh
    cases hh
  | succ fuel ih =>
    intro node h bndl log b log' hh
    rw [traverseBundle] at hh
    split at hh
    · simp at hh
    · rename_i tx hnode
      split at hh
      · rename_i htail
        simp at hh
      · rename_i htail
        split at hh
        · rename_i hlast
          rw [Option.some.injEq, Prod.mk.injEq] at hh
          obtain ⟨hok, hlog⟩ := hh
          rw [Except.ok.injEq] at hok
          refine ⟨[tx], hok.symm, ?_, ⟨hnode, hlast⟩, ?_⟩
          · rw [← hlog]
            rfl
          · intro hbndl
            refine ⟨tx, [], rfl, ?_⟩
            by_contra hne0
            exact htail ⟨by rw [hbndl]; rfl, hne0⟩
        · rename_i hlast
          obtain ⟨fetched, hb, hlog, hchain, _⟩ :=
            ih node tx.trunkTransaction (bndl ++ [tx]) (log ++ [h]) b
              log' hh
          cases fetched with
          | nil => simp [IsTrunkChain] at hchain
          | cons f fs =>
            refine ⟨tx :: f :: fs, ?_, ?_, ⟨hnode, hlast, hchain⟩, ?_⟩
            · rw [hb]
              simp
            · rw [hlog]
              simp [fetchHashes]
            · intro hbndl
              refine ⟨tx, f :: fs, rfl, ?_⟩
              by_contra hne0
              exact htail ⟨by rw [hbndl]; rfl, hne0⟩

/-! ### C8: GetBundle tail check and trunk traversal -/

/-- C8: a `GetBundle`/`TraverseBundle` start whose fetched transaction has
`currentIndex ≠ 0` fails with `InvalidTailTransaction` after that single
fetch (the fetch log is exactly `[tail]`); and whenever `GetBundle`
returns a bundle, the traversal followed trunk links appending each
fetched transaction until the first `currentIndex = lastIndex`
transaction, starting at a tail with `currentIndex = 0`, and the returned
bundle passed validation. -/
theorem getBundle_tail_check (node : String → Option Tx) (tail : String)
    (tx : Tx) (fuel : Nat) (h1 : node tail = some tx)
    (h2 : tx.currentIndex ≠ 0) (h3 : 1 ≤ fuel) :
    traverseBundle node fuel tail [] [] =
      some (.error .invalidTailTransaction, [tail]) ∧
    getBundle node fuel tail =
      some (.error .invalidTailTransaction, [tail]) ∧
    (∀ (node' : String → Option Tx) (fuel' : Nat) (start : String)
        (b : List Tx) (log : List String),
      getBundle node' fuel' start = some (.ok b, log) →
      validBundle b = true ∧ IsTrunkChain node' start b ∧
      log = fetchHashes start b ∧
      ∃ t0 r, b = t0 :: r ∧ t0.currentIndex = 0) := by
  obtain ⟨f, rfl⟩ : ∃ f, fuel = f + 1 := ⟨fuel - 1, by omega⟩
  have htrav : traverseBundle node (f + 1) tail [] [] =
      some (.error .invalidTailTransaction, [tail]) := by
    simp only [traverseBundle, h1, List.nil_append]
    rw [if_pos ⟨rfl, h2⟩]
  refine ⟨htrav, ?_, ?_⟩
  · rw [getBundle, htrav]
  · intro node' fuel' start b log hgb
    unfold getBundle at hgb
    cases htr : traverseBundle node' fuel' start [] [] with
    | none => rw [htr] at hgb; cases hgb
    | some p =>
      obtain ⟨r, lg⟩ := p
      cases r with
      | error e => rw [htr] at hgb; simp at hgb
      | ok b0 =>
        rw [htr] at hgb
        have hgb2 : some ((if validBundle b0 = true then
            (Except.ok b0 : Except ApiErr (List Tx))
            else Except.error ApiErr.invalidBundle), lg) =
            some (Except.ok b, log) := hgb
        by_cases hv : validBundle b0 = true
        · rw [if_pos hv] at hgb2
          rw [Option.some.injEq, Prod.mk.injEq, Except.ok.injEq] at hgb2
          obtain ⟨hb0, hlg⟩ := hgb2
          subst hb0
          subst hlg
          obtain ⟨fetched, hb, hlog, hchain, hhead⟩ :=
            traverseBundle_ok fuel' node' start [] [] b0 lg htr
          simp only [List.nil_append] at hb hlog
          subst hb
          exact ⟨hv, hchain, hlog, hhead rfl⟩
        · rw [if_neg hv] at hgb2
          simp at hgb2

/-- A one-transaction node map whose only transaction is not a tail. -/
def nodeW : String → Option Tx :=
  fun h => if h = "T" then some ⟨"A", 0, 1, 1, "U", "H"⟩ else none

/-- Witness for C8 on a concrete non-tail start transaction. -/
theorem getBundle_tail_check_witness :
    traverseBundle nodeW 1 "T" [] [] =
      some (.error .invalidTailTransaction, ["T"]) ∧
    getBundle nodeW 1 "T" =
      some (.error .invalidTailTransaction, ["T"]) ∧
    (∀ (node' : String → Option Tx) (fuel' : Nat) (start : String)
        (b : List Tx) (log : List String),
      getBundle node' fuel' start = some (.ok b, log) →
      validBundle b = true ∧ IsTrunkChain node' start b ∧
      log = fetchHashes start b ∧
      ∃ t0 r, b = t0 :: r ∧ t0.currentIndex = 0) :=
  getBundle_tail_check nodeW "T" ⟨"A", 0, 1, 1, "U", "H"⟩ 1 rfl
    (by decide) (by decide)

end IotaGo
